import Mathlib

/-!
The package timecache: a key-value store whose entries expire

Shallow embedding of `timecache.go`.

* A `time.Time` instant is an integer number of nanoseconds on one time line, a
  `time.Duration` an integer number of nanoseconds; `Time.Add` is `+` and
  `Time.Before` is `<` (Go's `Add` is exact over the whole range a realistic clock
  and an `int64` duration can reach). The wall clock and the monotonic clock that a
  `time.Time` may carry are one and the same time line here.
* Every call of `time.Now()` becomes the explicit argument `now` of the operation.
* The Go map `map[K]expVal[V]` is an association list without duplicate keys
  (`AList`): `c.m[key] = e` is `AList.insert`, `delete(c.m, key)` is `AList.erase`,
  `obj, ok := c.m[key]` is `AList.lookup`, `len(c.m)` the number of entries.
* The operations are modelled one call at a time (the `sync.RWMutex` serialises the
  map accesses of each critical section); a mutating operation returns the new cache.
* A Go result `(V, error)` is a pair `V × Option Error`, `none` standing for `nil`.
-/

namespace timecache

/-- An instant (`time.Time`), in nanoseconds. -/
abbrev Time := Int

/-- A span of time (`time.Duration`), in nanoseconds. -/
abbrev Duration := Int

/-- The errors of the package: `ErrNotExists = errors.New("obj not exists")`. -/
inductive Error where
  | ErrNotExists
deriving DecidableEq, Repr

/-- The constant `defaultCleanPeriodTime = time.Minute`. -/
def defaultCleanPeriodTime : Duration := 60 * 1000000000

/-- The constant `defaultStoreDuration = 10 * time.Minute`. -/
def defaultStoreDuration : Duration := 10 * (60 * 1000000000)

/-- The method `Time.Before`: `t.Before(u)` reports whether `t` is before `u`. -/
def Before (t u : Time) : Bool := decide (t < u)

/-- The method `Time.Add`: the instant `t + d`. -/
def Add (t : Time) (d : Duration) : Time := t + d

/-- The struct `expVal[V]`: a value and the instant it expires at. -/
structure expVal (V : Type) where
  expTime : Time
  val : V
deriving DecidableEq, Repr

/-- The struct `JanitorConfig`. -/
structure JanitorConfig where
  CleanPeriod : Duration
  StopJanitorEvery : Int
deriving DecidableEq, Repr

/-- The struct `Config`. -/
structure Config where
  StoreTime : Duration
  JanitorConfig : JanitorConfig
deriving DecidableEq, Repr

/-- The struct `Cache[K, V]`, without its mutex. -/
structure Cache (K V : Type) where
  m : AList (fun _ : K => expVal V)
  defStoreTime : Duration
  cleanPeriod : Duration
  janitorStops : Bool
  stopJanitorEvery : Int

section Operations

variable {K V : Type} [DecidableEq K]

/-- The function `NewCacheWithConfig`. The local `storeTime` receives the default
when `cfg.StoreTime` is zero, and the struct literal then reads `cfg.StoreTime`. -/
def NewCacheWithConfig (K V : Type) (cfg : Config) : Cache K V :=
  let storeTime : Duration := cfg.StoreTime
  let _storeTime : Duration := if storeTime = 0 then defaultStoreDuration else storeTime
  { m := ∅
    defStoreTime := cfg.StoreTime
    cleanPeriod := cfg.JanitorConfig.CleanPeriod
    janitorStops := decide (cfg.JanitorConfig.StopJanitorEvery ≠ 0)
    stopJanitorEvery := cfg.JanitorConfig.StopJanitorEvery }

/-- The function `NewCache`: the configuration literal sets `CleanPeriod` only, every
other field has its zero value. -/
def NewCache (K V : Type) : Cache K V :=
  NewCacheWithConfig K V
    { StoreTime := 0
      JanitorConfig := { CleanPeriod := defaultCleanPeriodTime, StopJanitorEvery := 0 } }

/-- The method `Cache.Store`, called at the instant `now`. -/
def Store (c : Cache K V) (now : Time) (key : K) (val : V) (dur : Duration) : Cache K V :=
  let t := Add now dur
  { c with m := c.m.insert key { expTime := t, val := val } }

/-- The method `Cache.StoreDefDur`, called at the instant `now`. -/
def StoreDefDur (c : Cache K V) (now : Time) (key : K) (val : V) : Cache K V :=
  Store c now key val c.defStoreTime

/-- The method `Cache.zero`: the zero value of `V`. -/
def zero (V : Type) [Inhabited V] : V := default

/-- The method `Cache.Get`, called at the instant `now`. -/
def Get [Inhabited V] (c : Cache K V) (now : Time) (key : K) : V × Option Error :=
  match c.m.lookup key with
  | none => (zero V, some Error.ErrNotExists)
  | some obj =>
    if Before obj.expTime now then (zero V, some Error.ErrNotExists)
    else (obj.val, none)

/-- The method `Cache.Delete`. -/
def Delete (c : Cache K V) (key : K) : Cache K V :=
  { c with m := c.m.erase key }

/-- The method `Cache.Update`, called at the instant `now`: the cache afterwards and
the error returned. -/
def Update (c : Cache K V) (now : Time) (key : K) (dur : Duration) (f : V → V) :
    Cache K V × Option Error :=
  let newExpTime := Add now dur
  match c.m.lookup key with
  | none => (c, some Error.ErrNotExists)
  | some obj =>
    if Before obj.expTime now then (c, some Error.ErrNotExists)
    else ({ c with m := c.m.insert key { expTime := newExpTime, val := f obj.val } }, none)

/-- The method `Cache.ObjectAmount`: `len(c.m)`. -/
def ObjectAmount (c : Cache K V) : Nat :=
  c.m.entries.length

end Operations

/-- The cache of the examples: key `1` holds the value `7` and expires at instant `5`. -/
def sampleCache : Cache Nat Int :=
  Store (NewCache Nat Int) 0 1 7 5

/-! ## The sweep, and what each method does to the lock

`CleanExpired` is the one method that can fail at run time (an integer remainder
with a zero divisor panics) and the one whose lock events depend on the data, so it
is embedded with both: it returns `none` for the panic, and otherwise the cache
afterwards together with the sequence of events of the call. The `range` loop visits
the entries in the order of `c.m.entries`; Go leaves that order unspecified, and a
statement about every cache covers every order. The loop deletes only the entry it
is at, so it visits every entry the map had at the start exactly once. The loop
counter is a Go `int`; it never exceeds the number of entries plus one, so it is an
unbounded integer here. -/

/-- The events of a call: the four mutex calls, and for the sweep the expiry test
`v.expTime.Before(now)` on the entry of a key and the `delete(c.m, k)` of a key. -/
inductive Event (K : Type) where
  | Lock
  | Unlock
  | RLock
  | RUnlock
  | Inspect (k : K)
  | Delete (k : K)
deriving DecidableEq, Repr

section Sweep

variable {K V : Type} [DecidableEq K]

/-- The statement `if c.janitorStops && counter%c.stopJanitorEvery == 0 { c.mu.Unlock();
c.mu.Lock() }` of `CleanExpired`: `&&` evaluates the remainder only when `janitorStops`
is true; with a zero divisor the remainder panics (`none`); Go's `%` truncates
(`Int.tmod`). The result is the events of the statement. -/
def yieldCheck (K : Type) (janitorStops : Bool) (stopJanitorEvery : Int) (counter : Int) :
    Option (List (Event K)) :=
  if janitorStops then
    if stopJanitorEvery = 0 then none
    else if counter.tmod stopJanitorEvery = 0 then some [Event.Unlock, Event.Lock]
    else some []
  else some []

/-- The loop `for k, v := range c.m { ... counter++ }` of `CleanExpired` over the
entries still to visit, from the map and the counter reached so far: the map at the
end and the events of the loop. The `range` clause has bound `k, v` when the yield
statement runs; the expiry test on `v` and the deletion come after it. -/
def rangeLoop (janitorStops : Bool) (stopJanitorEvery : Int) (now : Time) :
    List (Sigma fun _ : K => expVal V) → AList (fun _ : K => expVal V) → Int →
      Option (AList (fun _ : K => expVal V) × List (Event K))
  | [], m, _ => some (m, [])
  | kv :: rest, m, counter =>
    match yieldCheck K janitorStops stopJanitorEvery counter with
    | none => none
    | some ys =>
      let expired := Before kv.2.expTime now
      let m1 := if expired then m.erase kv.1 else m
      let ds := if expired then [Event.Delete kv.1] else []
      match rangeLoop janitorStops stopJanitorEvery now rest m1 (counter + 1) with
      | none => none
      | some (m2, tr) => some (m2, ys ++ Event.Inspect kv.1 :: ds ++ tr)

/-- The method `Cache.CleanExpired`, called at the instant `now`. -/
def CleanExpired (c : Cache K V) (now : Time) : Option (Cache K V × List (Event K)) :=
  match rangeLoop c.janitorStops c.stopJanitorEvery now c.m.entries c.m 1 with
  | none => none
  | some (m, tr) => some ({ c with m := m }, Event.Lock :: tr ++ [Event.Unlock])

/-- The method `Cache.Store` with the cache it leaves and its mutex calls. -/
def StoreT (c : Cache K V) (now : Time) (key : K) (val : V) (dur : Duration) :
    Cache K V × List (Event K) :=
  let t := Add now dur
  ({ c with m := c.m.insert key { expTime := t, val := val } }, [Event.Lock, Event.Unlock])

/-- The method `Cache.StoreDefDur` with the cache it leaves and its mutex calls. -/
def StoreDefDurT (c : Cache K V) (now : Time) (key : K) (val : V) :
    Cache K V × List (Event K) :=
  StoreT c now key val c.defStoreTime

/-- The method `Cache.Get` with the cache it leaves and its mutex calls, one
`RUnlock` on each of the three return paths. -/
def GetT [Inhabited V] (c : Cache K V) (now : Time) (key : K) :
    Cache K V × (V × Option Error) × List (Event K) :=
  match c.m.lookup key with
  | none => (c, (zero V, some Error.ErrNotExists), [Event.RLock, Event.RUnlock])
  | some obj =>
    if Before obj.expTime now then
      (c, (zero V, some Error.ErrNotExists), [Event.RLock, Event.RUnlock])
    else (c, (obj.val, none), [Event.RLock, Event.RUnlock])

/-- The method `Cache.Delete` with the cache it leaves and its mutex calls. -/
def DeleteT (c : Cache K V) (key : K) : Cache K V × List (Event K) :=
  ({ c with m := c.m.erase key }, [Event.Lock, Event.Unlock])

/-- The method `Cache.Update` with the cache it leaves and its mutex calls, one
`Unlock` on each of the three return paths. -/
def UpdateT (c : Cache K V) (now : Time) (key : K) (dur : Duration) (f : V → V) :
    Cache K V × Option Error × List (Event K) :=
  let newExpTime := Add now dur
  match c.m.lookup key with
  | none => (c, some Error.ErrNotExists, [Event.Lock, Event.Unlock])
  | some obj =>
    if Before obj.expTime now then (c, some Error.ErrNotExists, [Event.Lock, Event.Unlock])
    else ({ c with m := c.m.insert key { expTime := newExpTime, val := f obj.val } }, none,
      [Event.Lock, Event.Unlock])

/-- The method `Cache.ObjectAmount` with the cache it leaves and its mutex calls. -/
def ObjectAmountT (c : Cache K V) : Cache K V × Nat × List (Event K) :=
  (c, c.m.entries.length, [Event.RLock, Event.RUnlock])

/-- The relation `NewCacheWithConfig` sets up between the two janitor fields
(`janitorStops: cfg.JanitorConfig.StopJanitorEvery != 0`), which no method writes. -/
def Constructed (c : Cache K V) : Prop :=
  c.janitorStops = decide (c.stopJanitorEvery ≠ 0)

instance (c : Cache K V) : Decidable (Constructed c) := by
  unfold Constructed
  infer_instance

/-- One call of `Store`: the instant of the call and its arguments. -/
structure StoreCall (K V : Type) where
  now : Time
  key : K
  val : V
  dur : Duration

/-- A series of `Store` calls, one after the other. -/
def storeAll (c : Cache K V) (calls : List (StoreCall K V)) : Cache K V :=
  calls.foldl (fun c s => Store c s.now s.key s.val s.dur) c

/-- A series of `Get` calls, each at its own instant, one after the other: the cache
they leave. -/
def getAll [Inhabited V] (c : Cache K V) (calls : List (Time × K)) : Cache K V :=
  calls.foldl (fun c g => (GetT c g.1 g.2).1) c

end Sweep

/-- The state of a `sync.RWMutex`: whether a writer holds it, and how many readers. -/
structure Mutex where
  writer : Bool
  readers : Nat
deriving DecidableEq, Repr

/-- The mutex nobody holds. -/
def Mutex.free : Mutex := { writer := false, readers := 0 }

/-- One event of a goroutine on the mutex, `none` when the event cannot happen:
`Lock` needs the mutex free, `RLock` needs no writer, `Unlock` and `RUnlock` need a
lock of their mode to release, and the sweep tests and deletes an entry only while
it holds the write lock. -/
def Mutex.step {K : Type} (mu : Mutex) : Event K → Option Mutex
  | Event.Lock => if mu.writer = false ∧ mu.readers = 0 then some { mu with writer := true } else none
  | Event.Unlock => if mu.writer = true then some { mu with writer := false } else none
  | Event.RLock => if mu.writer = false then some { mu with readers := mu.readers + 1 } else none
  | Event.RUnlock => if 0 < mu.readers then some { mu with readers := mu.readers - 1 } else none
  | Event.Inspect _ => if mu.writer = true then some mu else none
  | Event.Delete _ => if mu.writer = true then some mu else none

/-- The events of a call, one after the other, from a state of the mutex. -/
def Mutex.run {K : Type} : Mutex → List (Event K) → Option Mutex
  | mu, [] => some mu
  | mu, e :: es =>
    match mu.step e with
    | none => none
    | some mu1 => Mutex.run mu1 es

/-- The event is a call in the write mode of the mutex. -/
def Event.isWrite {K : Type} : Event K → Bool
  | Event.Lock => true
  | Event.Unlock => true
  | _ => false

/-- The event is a call in the read mode of the mutex. -/
def Event.isRead {K : Type} : Event K → Bool
  | Event.RLock => true
  | Event.RUnlock => true
  | _ => false

/-- The event is a deletion of the sweep. -/
def Event.isDelete {K : Type} : Event K → Bool
  | Event.Delete _ => true
  | _ => false

/-- The number of entries tested in each hold of the write lock, in order: a hold
starts at `Lock` and ends at the next `Unlock`; `held` counts the tests of the hold
under way. -/
def inspectsPerHold {K : Type} : List (Event K) → Nat → List Nat
  | [], _ => []
  | Event.Lock :: tr, _ => inspectsPerHold tr 0
  | Event.Unlock :: tr, held => held :: inspectsPerHold tr 0
  | Event.Inspect _ :: tr, held => inspectsPerHold tr (held + 1)
  | _ :: tr, held => inspectsPerHold tr held

/-- The tests and yields of a sweep in which the lock is released and reacquired
right before the test of the entries number `Y`, `2Y`, `3Y`, ... (`i` is the number
of the first key of the list). -/
def yieldBeforeEvery {K : Type} (Y : Int) : List K → Nat → List (Event K)
  | [], _ => []
  | k :: ks, i =>
    (if (i : Int) % Y = 0 then [Event.Unlock, Event.Lock] else [])
      ++ Event.Inspect k :: yieldBeforeEvery Y ks (i + 1)

/-- The tests and yields of a sweep as the specification words them: the lock is
released and reacquired right after the test of the entries number `Y`, `2Y`, `3Y`,
... (`i` is the number of the first key of the list). -/
def yieldAfterEvery {K : Type} (Y : Int) : List K → Nat → List (Event K)
  | [], _ => []
  | k :: ks, i =>
    Event.Inspect k :: (if (i : Int) % Y = 0 then [Event.Unlock, Event.Lock] else [])
      ++ yieldAfterEvery Y ks (i + 1)

/-- The cache of the sweep examples, built by `NewCacheWithConfig` with
`StopJanitorEvery = 2`: keys `1`, `2`, `3` stored at instant `0`, key `2` for `5`,
the others for `100`. -/
def sweepCache : Cache Nat Int :=
  Store (Store (Store (NewCacheWithConfig Nat Int
    { StoreTime := 0, JanitorConfig := { CleanPeriod := 0, StopJanitorEvery := 2 } })
    0 3 30 100) 0 2 20 5) 0 1 10 100

/-! ## Lemmas on the map and on the single operations -/

section Lemmas

variable {K V : Type} [DecidableEq K]

/-- Two caches with the same fields are the same cache. -/
theorem Cache.ext_fields {K V : Type} {a b : Cache K V} (hm : a.m = b.m)
    (hd : a.defStoreTime = b.defStoreTime) (hc : a.cleanPeriod = b.cleanPeriod)
    (hj : a.janitorStops = b.janitorStops) (hs : a.stopJanitorEvery = b.stopJanitorEvery) :
    a = b := by
  cases a; cases b; simp_all

theorem Before_iff (t u : Time) : Before t u = true ↔ t < u := by
  simp [Before]

theorem length_kerase_of_mem {β : K → Type} (a : K) (l : List (Sigma β)) (h : a ∈ l.keys) :
    (List.kerase a l).length + 1 = l.length := by
  obtain ⟨b, l₁, l₂, -, hl, hk⟩ := List.exists_of_kerase h
  rw [hk]
  conv_rhs => rw [hl]
  simp only [List.length_append, List.length_cons]
  omega

theorem length_insert_entries (m : AList (fun _ : K => expVal V)) (key : K) (e : expVal V) :
    (m.insert key e).entries.length
      = if key ∈ m then m.entries.length else m.entries.length + 1 := by
  rw [AList.insert_entries, List.length_cons]
  by_cases h : key ∈ m
  · rw [if_pos h]
    exact length_kerase_of_mem key m.entries (AList.mem_keys.mp h)
  · rw [if_neg h, List.kerase_of_not_mem_keys (fun hk => h (AList.mem_keys.mpr hk))]

theorem length_erase_entries (m : AList (fun _ : K => expVal V)) (key : K) :
    (m.erase key).entries.length
      = if key ∈ m then m.entries.length - 1 else m.entries.length := by
  show (List.kerase key m.entries).length = _
  by_cases h : key ∈ m
  · rw [if_pos h]
    have := length_kerase_of_mem key m.entries (AList.mem_keys.mp h)
    omega
  · rw [if_neg h, List.kerase_of_not_mem_keys (fun hk => h (AList.mem_keys.mpr hk))]

theorem erase_of_not_mem (m : AList (fun _ : K => expVal V)) (key : K) (h : key ∉ m) :
    m.erase key = m :=
  AList.ext (List.kerase_of_not_mem_keys (fun hk => h (AList.mem_keys.mpr hk)))

theorem Get_of_absent [Inhabited V] (c : Cache K V) (now : Time) (key : K)
    (h : c.m.lookup key = none) : Get c now key = (zero V, some Error.ErrNotExists) := by
  unfold Get
  rw [h]

theorem Get_of_expired [Inhabited V] (c : Cache K V) (now : Time) (key : K) (e : expVal V)
    (h : c.m.lookup key = some e) (hexp : e.expTime < now) :
    Get c now key = (zero V, some Error.ErrNotExists) := by
  unfold Get
  rw [h]
  simp [Before, hexp]

theorem Get_of_live [Inhabited V] (c : Cache K V) (now : Time) (key : K) (e : expVal V)
    (h : c.m.lookup key = some e) (hlive : now ≤ e.expTime) :
    Get c now key = (e.val, none) := by
  unfold Get
  rw [h]
  simp [Before, not_lt.mpr hlive]

theorem Store_lookup_self (c : Cache K V) (now : Time) (key : K) (val : V) (dur : Duration) :
    (Store c now key val dur).m.lookup key = some { expTime := now + dur, val := val } := by
  simp [Store, Add, AList.lookup_insert]

theorem Store_lookup_other (c : Cache K V) (now : Time) (key : K) (val : V) (dur : Duration)
    (k : K) (hk : k ≠ key) : (Store c now key val dur).m.lookup k = c.m.lookup k := by
  simp [Store, AList.lookup_insert_ne hk]

theorem Update_of_absent (c : Cache K V) (now : Time) (key : K) (dur : Duration) (f : V → V)
    (h : c.m.lookup key = none) : Update c now key dur f = (c, some Error.ErrNotExists) := by
  unfold Update
  rw [h]

theorem Update_of_expired (c : Cache K V) (now : Time) (key : K) (dur : Duration) (f : V → V)
    (e : expVal V) (h : c.m.lookup key = some e) (hexp : e.expTime < now) :
    Update c now key dur f = (c, some Error.ErrNotExists) := by
  unfold Update
  rw [h]
  simp [Before, hexp]

theorem Update_of_live (c : Cache K V) (now : Time) (key : K) (dur : Duration) (f : V → V)
    (e : expVal V) (h : c.m.lookup key = some e) (hlive : ¬ e.expTime < now) :
    Update c now key dur f
      = ({ c with m := c.m.insert key { expTime := now + dur, val := f e.val } }, none) := by
  unfold Update
  rw [h]
  simp [Before, hlive, Add]

theorem StoreDefDur_NewCacheWithConfig (cfg : Config) (now : Time) (key : K) (val : V) :
    StoreDefDur (NewCacheWithConfig K V cfg) now key val
      = Store (NewCacheWithConfig K V cfg) now key val cfg.StoreTime :=
  rfl

theorem Get_StoreDefDur_NewCache_later [Inhabited V] (t t' : Time) (key : K) (val : V)
    (h : t < t') :
    Get (StoreDefDur (NewCache K V) t key val) t' key = (zero V, some Error.ErrNotExists) := by
  refine Get_of_expired _ t' key { expTime := t + 0, val := val } ?_ ?_
  · exact Store_lookup_self (NewCache K V) t key val 0
  · simpa using h

/-! ### The sweep -/

theorem Constructed.ne_zero {K V : Type} {c : Cache K V} (h : Constructed c) :
    c.janitorStops = true → c.stopJanitorEvery ≠ 0 := by
  intro hj
  unfold Constructed at h
  rw [hj] at h
  exact of_decide_eq_true h.symm

theorem Constructed_NewCacheWithConfig {K V : Type} (cfg : Config) :
    Constructed (NewCacheWithConfig K V cfg) := by
  simp [Constructed, NewCacheWithConfig]

theorem yieldCheck_eq {K : Type} (js : Bool) (Y counter : Int) (hcfg : js = true → Y ≠ 0) :
    yieldCheck K js Y counter
      = some (if js = true ∧ counter.tmod Y = 0 then [Event.Unlock, Event.Lock] else []) := by
  unfold yieldCheck
  cases js with
  | false => simp
  | true =>
    have hY : Y ≠ 0 := hcfg rfl
    simp only [if_true, if_neg hY, true_and]
    split_ifs <;> rfl

theorem not_mem_keys_of_nodupKeys_append {K V : Type} (pre rest : List (Sigma fun _ : K => expVal V))
    (kv : Sigma fun _ : K => expVal V) (h : (pre ++ kv :: rest).NodupKeys) :
    kv.1 ∉ pre.keys := by
  unfold List.NodupKeys at h
  simp only [List.keys, List.map_append, List.map_cons] at h
  rw [List.nodup_append] at h
  intro hmem
  exact h.2.2 hmem (List.mem_cons_self _ _)

/-- The sweep loop never panics on a cache whose janitor fields agree, and it leaves
the entries it was given minus those that expire before `now`, in their order. -/
theorem rangeLoop_entries (js : Bool) (Y : Int) (now : Time) (hcfg : js = true → Y ≠ 0) :
    ∀ (l pre : List (Sigma fun _ : K => expVal V)) (m : AList (fun _ : K => expVal V))
      (counter : Int), m.entries = pre ++ l →
      ∃ m1 tr, rangeLoop js Y now l m counter = some (m1, tr) ∧
        m1.entries = pre ++ l.filter (fun kv => !Before kv.2.expTime now) := by
  intro l
  induction l with
  | nil =>
    intro pre m counter hm
    exact ⟨m, [], rfl, by simpa using hm⟩
  | cons kv rest ih =>
    intro pre m counter hm
    have hnot : kv.1 ∉ pre.keys := by
      have hnd := m.nodupKeys
      rw [hm] at hnd
      exact not_mem_keys_of_nodupKeys_append pre rest kv hnd
    unfold rangeLoop
    rw [yieldCheck_eq js Y counter hcfg]
    by_cases hexp : Before kv.2.expTime now = true
    · have hm1 : (m.erase kv.1).entries = pre ++ rest := by
        show List.kerase kv.1 m.entries = pre ++ rest
        rw [hm, List.kerase_append_right hnot, List.kerase_cons_eq rfl]
      obtain ⟨m1, tr, hrec, hent⟩ := ih pre (m.erase kv.1) (counter + 1) hm1
      simp only [hexp, if_true]
      rw [hrec]
      exact ⟨m1, _, rfl, by simpa [hexp] using hent⟩
    · have hm1 : m.entries = (pre ++ [kv]) ++ rest := by
        rw [hm]
        simp
      obtain ⟨m1, tr, hrec, hent⟩ := ih (pre ++ [kv]) m (counter + 1) hm1
      simp only [hexp]
      rw [if_neg (by simp), hrec]
      exact ⟨m1, _, rfl, by simpa [hexp] using hent⟩

/-- The sweep of a cache whose janitor fields agree returns; it leaves the entries
that do not expire before `now`, in their order, and the other fields as they were. -/
theorem CleanExpired_entries (c : Cache K V) (now : Time)
    (hcfg : c.janitorStops = true → c.stopJanitorEvery ≠ 0) :
    ∃ c1 tr, CleanExpired c now = some (c1, tr) ∧
      c1.m.entries = c.m.entries.filter (fun kv => !Before kv.2.expTime now) ∧
      c1.defStoreTime = c.defStoreTime ∧ c1.cleanPeriod = c.cleanPeriod ∧
      c1.janitorStops = c.janitorStops ∧ c1.stopJanitorEvery = c.stopJanitorEvery := by
  obtain ⟨m1, tr, hrec, hent⟩ :=
    rangeLoop_entries c.janitorStops c.stopJanitorEvery now hcfg c.m.entries [] c.m 1 rfl
  refine ⟨{ c with m := m1 }, Event.Lock :: tr ++ [Event.Unlock], ?_, ?_, rfl, rfl, rfl, rfl⟩
  · unfold CleanExpired
    rw [hrec]
  · simpa using hent

theorem dlookup_filter (p : K → expVal V → Bool) :
    ∀ (l : List (Sigma fun _ : K => expVal V)), l.NodupKeys → ∀ k : K,
      List.dlookup k (l.filter (fun kv => p kv.1 kv.2))
        = (List.dlookup k l).filter (fun e => p k e) := by
  intro l
  induction l with
  | nil => intro _ k; simp
  | cons s rest ih =>
    intro hnd k
    obtain ⟨a, b⟩ := s
    rw [List.nodupKeys_cons] at hnd
    by_cases hk : k = a
    · subst hk
      rw [List.dlookup_cons_eq]
      by_cases hp : p k b = true
      · rw [List.filter_cons_of_pos (by simpa using hp), List.dlookup_cons_eq]
        simp [Option.filter, hp]
      · rw [List.filter_cons_of_neg (by simpa using hp)]
        have hnone : List.dlookup k (rest.filter (fun kv => p kv.1 kv.2)) = none := by
          rw [List.dlookup_eq_none]
          intro hmem
          exact hnd.1 ((List.filter_sublist rest).map Sigma.fst |>.subset hmem)
        rw [hnone]
        simp [Option.filter, hp]
    · rw [List.dlookup_cons_ne _ _ hk]
      by_cases hp : p a b = true
      · rw [List.filter_cons_of_pos (by simpa using hp), List.dlookup_cons_ne _ _ hk]
        exact ih hnd.2 k
      · rw [List.filter_cons_of_neg (by simpa using hp)]
        exact ih hnd.2 k

theorem CleanExpired_lookup (c : Cache K V) (now : Time)
    (hcfg : c.janitorStops = true → c.stopJanitorEvery ≠ 0) :
    ∃ c1 tr, CleanExpired c now = some (c1, tr) ∧
      c1.m.entries = c.m.entries.filter (fun kv => !Before kv.2.expTime now) ∧
      ∀ k, c1.m.lookup k = (c.m.lookup k).filter (fun e => !Before e.expTime now) := by
  obtain ⟨c1, tr, hrun, hent, -⟩ := CleanExpired_entries c now hcfg
  refine ⟨c1, tr, hrun, hent, fun k => ?_⟩
  show List.dlookup k c1.m.entries = _
  rw [hent]
  exact dlookup_filter (fun _ e => !Before e.expTime now) c.m.entries c.m.nodupKeys k

theorem Get_congr [Inhabited V] (c c1 : Cache K V) (now : Time) (key : K)
    (h : c1.m.lookup key = c.m.lookup key) : Get c1 now key = Get c now key := by
  unfold Get
  rw [h]

theorem Update_error_congr (c c1 : Cache K V) (now : Time) (key : K) (dur : Duration)
    (f : V → V) (h : c1.m.lookup key = c.m.lookup key) :
    (Update c1 now key dur f).2 = (Update c now key dur f).2 ∧
    ((Update c now key dur f).2 = none →
      (Update c1 now key dur f).1.m.lookup key = (Update c now key dur f).1.m.lookup key) := by
  unfold Update
  rw [h]
  cases c.m.lookup key with
  | none => simp
  | some e =>
    by_cases hx : Before e.expTime now = true
    · simp [hx]
    · simp [hx, AList.lookup_insert]

theorem Get_error_iff_of_mem [Inhabited V] (c : Cache K V) (now : Time)
    (kv : Sigma fun _ : K => expVal V) (hmem : kv ∈ c.m.entries) :
    (Get c now kv.1).2 = some Error.ErrNotExists ↔ Before kv.2.expTime now = true := by
  have hl : c.m.lookup kv.1 = some kv.2 := by
    have := (AList.mem_lookup_iff (a := kv.1) (b := kv.2) (s := c.m)).mpr hmem
    simpa using this
  unfold Get
  rw [hl]
  by_cases hx : Before kv.2.expTime now = true <;> simp [hx]

/-! ### The events of the sweep -/

theorem yieldCheck_some {K : Type} (js : Bool) (Y counter : Int) (ys : List (Event K))
    (h : yieldCheck K js Y counter = some ys) :
    ys = if js = true ∧ counter.tmod Y = 0 then [Event.Unlock, Event.Lock] else [] := by
  unfold yieldCheck at h
  cases js with
  | false =>
    simp at h
    simp [h]
  | true =>
    by_cases hY : Y = 0
    · simp [hY] at h
    · by_cases hm : counter.tmod Y = 0
      · simp [hY, hm] at h
        simp [hm, h]
      · simp [hY, hm] at h
        simp [hm, h]

theorem rangeLoop_cons_some (js : Bool) (Y : Int) (now : Time)
    (kv : Sigma fun _ : K => expVal V) (rest : List (Sigma fun _ : K => expVal V))
    (m m1 : AList (fun _ : K => expVal V)) (counter : Int) (tr : List (Event K))
    (h : rangeLoop js Y now (kv :: rest) m counter = some (m1, tr)) :
    ∃ ys tr1, yieldCheck K js Y counter = some ys ∧
      rangeLoop js Y now rest (if Before kv.2.expTime now then m.erase kv.1 else m)
        (counter + 1) = some (m1, tr1) ∧
      tr = ys ++ Event.Inspect kv.1
        :: (if Before kv.2.expTime now then [Event.Delete kv.1] else []) ++ tr1 := by
  rw [rangeLoop] at h
  cases hy : yieldCheck K js Y counter with
  | none => rw [hy] at h; simp at h
  | some ys =>
    rw [hy] at h
    simp only at h
    cases hr : rangeLoop js Y now rest (if Before kv.2.expTime now then m.erase kv.1 else m)
        (counter + 1) with
    | none => rw [hr] at h; simp at h
    | some r =>
      obtain ⟨m2, tr1⟩ := r
      rw [hr] at h
      simp only [Option.some.injEq, Prod.mk.injEq] at h
      exact ⟨ys, tr1, rfl, by rw [h.1], h.2.symm⟩

theorem filter_yield_events {K : Type} (js : Bool) (Y counter : Int) :
    (if js = true ∧ counter.tmod Y = 0 then [Event.Unlock, Event.Lock] else []
      : List (Event K)).filter (fun e => !e.isWrite) = [] := by
  split_ifs <;> rfl

/-- What a sweep tests and deletes, and in which order, does not depend on the janitor
fields, the map it started from or the counter. -/
theorem rangeLoop_work_eq (js js1 : Bool) (Y Y1 : Int) (now : Time) :
    ∀ (l : List (Sigma fun _ : K => expVal V)) (m m1 r r1 : AList (fun _ : K => expVal V))
      (counter counter1 : Int) (tr tr1 : List (Event K)),
      rangeLoop js Y now l m counter = some (r, tr) →
      rangeLoop js1 Y1 now l m1 counter1 = some (r1, tr1) →
      tr.filter (fun e => !e.isWrite) = tr1.filter (fun e => !e.isWrite) := by
  intro l
  induction l with
  | nil =>
    intro m m1 r r1 counter counter1 tr tr1 h h1
    simp only [rangeLoop, Option.some.injEq, Prod.mk.injEq] at h h1
    rw [← h.2, ← h1.2]
  | cons kv rest ih =>
    intro m m1 r r1 counter counter1 tr tr1 h h1
    obtain ⟨ys, t, hy, hrec, htr⟩ := rangeLoop_cons_some js Y now kv rest m r counter tr h
    obtain ⟨ys1, t1, hy1, hrec1, htr1⟩ :=
      rangeLoop_cons_some js1 Y1 now kv rest m1 r1 counter1 tr1 h1
    have hys := yieldCheck_some js Y counter ys hy
    have hys1 := yieldCheck_some js1 Y1 counter1 ys1 hy1
    have hrest := ih _ _ r r1 _ _ t t1 hrec hrec1
    rw [htr, htr1, hys, hys1]
    simp only [List.filter_append, List.filter_cons, filter_yield_events, List.nil_append]
    rw [hrest]

theorem filter_yield_keep {K : Type} (js : Bool) (Y counter : Int) :
    (if js = true ∧ counter.tmod Y = 0 then [Event.Unlock, Event.Lock] else []
      : List (Event K)).filter (fun e => !e.isDelete)
      = if js = true ∧ counter.tmod Y = 0 then [Event.Unlock, Event.Lock] else [] := by
  split_ifs <;> rfl

theorem filter_delete_drop {K : Type} (b : Bool) (k : K) :
    (if b = true then [Event.Delete k] else [] : List (Event K)).filter
      (fun e => !e.isDelete) = [] := by
  split_ifs <;> rfl

/-- With yielding on, the loop yields right before the test of every entry whose
number is a multiple of `Y`. -/
theorem rangeLoop_yields_before (Y : Int) (hY : 0 < Y) (now : Time) :
    ∀ (l : List (Sigma fun _ : K => expVal V)) (m r : AList (fun _ : K => expVal V))
      (i : Nat) (tr : List (Event K)),
      rangeLoop true Y now l m (i : Int) = some (r, tr) →
      tr.filter (fun e => !e.isDelete) = yieldBeforeEvery Y (l.map Sigma.fst) i := by
  intro l
  induction l with
  | nil =>
    intro m r i tr h
    simp only [rangeLoop, Option.some.injEq, Prod.mk.injEq] at h
    rw [← h.2]
    rfl
  | cons kv rest ih =>
    intro m r i tr h
    obtain ⟨ys, t, hy, hrec, htr⟩ := rangeLoop_cons_some true Y now kv rest m r i tr h
    have hys := yieldCheck_some true Y i ys hy
    have hcast : (i : Int) + 1 = ((i + 1 : Nat) : Int) := by push_cast; rfl
    rw [hcast] at hrec
    have hrest := ih _ r (i + 1) t hrec
    have hmod : (i : Int).tmod Y = (i : Int) % Y :=
      Int.tmod_eq_emod (Int.ofNat_nonneg i) (le_of_lt hY)
    have hins : (!(Event.Inspect kv.1 : Event K).isDelete) = true := rfl
    rw [htr, hys]
    simp only [List.filter_append, List.filter_cons, filter_yield_keep, filter_delete_drop,
      List.nil_append, hrest, List.map_cons, yieldBeforeEvery, hmod, true_and, hins, if_true]
    split_ifs <;> rfl

theorem emod_succ_of_ne_zero (x Y : Int) (hY : 0 < Y) (h : x % Y ≠ 0) :
    (x - 1) % Y + 1 = x % Y := by
  have h0 : 0 ≤ x % Y := Int.emod_nonneg x (ne_of_gt hY)
  have h1 : x % Y < Y := Int.emod_lt_of_pos x hY
  have hx : x - 1 = (x % Y - 1) + Y * (x / Y) := by
    have := Int.emod_add_ediv x Y
    linarith
  rw [hx, Int.add_mul_emod_self_left, Int.emod_eq_of_lt (by omega) (by omega)]
  omega

theorem inspectsPerHold_delete_append {K : Type} (b : Bool) (k : K) (tr : List (Event K))
    (held : Nat) :
    inspectsPerHold ((if b = true then [Event.Delete k] else []) ++ tr) held
      = inspectsPerHold tr held := by
  cases b <;> simp [inspectsPerHold]

/-- With yielding on, every hold of the write lock inside the loop, the one under
way included, covers at most `Y` tests, and every entry is tested in some hold. -/
theorem rangeLoop_holds (Y : Int) (hY : 0 < Y) (now : Time) :
    ∀ (l : List (Sigma fun _ : K => expVal V)) (m r : AList (fun _ : K => expVal V))
      (i held : Nat) (tr : List (Event K)),
      (held : Int) ≤ ((i : Int) - 1) % Y + 1 →
      rangeLoop true Y now l m (i : Int) = some (r, tr) →
      (∀ n ∈ inspectsPerHold (tr ++ [Event.Unlock]) held, (n : Int) ≤ Y) ∧
      (inspectsPerHold (tr ++ [Event.Unlock]) held).sum = held + l.length := by
  intro l
  induction l with
  | nil =>
    intro m r i held tr hheld h
    simp only [rangeLoop, Option.some.injEq, Prod.mk.injEq] at h
    rw [← h.2]
    have hlt : ((i : Int) - 1) % Y < Y := Int.emod_lt_of_pos _ hY
    simp only [List.nil_append, inspectsPerHold, List.mem_singleton, forall_eq,
      List.sum_cons, List.sum_nil, List.length_nil]
    exact ⟨by omega, trivial⟩
  | cons kv rest ih =>
    intro m r i held tr hheld h
    obtain ⟨ys, t, hy, hrec, htr⟩ := rangeLoop_cons_some true Y now kv rest m r i tr h
    have hys := yieldCheck_some true Y i ys hy
    have hcast : (i : Int) + 1 = ((i + 1 : Nat) : Int) := by push_cast; rfl
    rw [hcast] at hrec
    have hmod : (i : Int).tmod Y = (i : Int) % Y :=
      Int.tmod_eq_emod (Int.ofNat_nonneg i) (le_of_lt hY)
    have hsimp : ((i + 1 : Nat) : Int) - 1 = (i : Int) := by push_cast; ring
    by_cases hz : (i : Int) % Y = 0
    · have hone : ((1 : Nat) : Int) ≤ (((i + 1 : Nat) : Int) - 1) % Y + 1 := by
        rw [hsimp, hz]
        decide
      obtain ⟨hle, hsum⟩ := ih _ r (i + 1) 1 t hone hrec
      have hlt : ((i : Int) - 1) % Y < Y := Int.emod_lt_of_pos _ hY
      rw [htr, hys]
      simp only [hmod, hz, true_and, if_true, List.cons_append, List.nil_append,
        List.append_assoc, inspectsPerHold, inspectsPerHold_delete_append, List.mem_cons,
        List.sum_cons, List.length_cons, hsum]
      refine ⟨?_, by omega⟩
      intro n hn
      rcases hn with hn | hn
      · rw [hn]
        omega
      · exact hle n hn
    · have hstep : ((held + 1 : Nat) : Int) ≤ (((i + 1 : Nat) : Int) - 1) % Y + 1 := by
        rw [hsimp]
        have := emod_succ_of_ne_zero (i : Int) Y hY hz
        push_cast
        omega
      obtain ⟨hle, hsum⟩ := ih _ r (i + 1) (held + 1) t hstep hrec
      rw [htr, hys]
      simp only [hmod, hz, true_and, if_false, List.cons_append, List.nil_append,
        List.append_assoc, inspectsPerHold, inspectsPerHold_delete_append,
        List.length_cons, hsum]
      exact ⟨hle, by omega⟩

/-! ### The lock -/

/-- The mutex held by one writer. -/
theorem Mutex.step_unlock_lock {K : Type} (es : List (Event K)) :
    Mutex.run { writer := true, readers := 0 } (Event.Unlock :: Event.Lock :: es)
      = Mutex.run { writer := true, readers := 0 } es := by
  simp [Mutex.run, Mutex.step]

theorem Mutex.run_yield_append {K : Type} (js : Bool) (Y counter : Int) (es : List (Event K)) :
    Mutex.run { writer := true, readers := 0 }
        ((if js = true ∧ counter.tmod Y = 0 then [Event.Unlock, Event.Lock] else []) ++ es)
      = Mutex.run { writer := true, readers := 0 } es := by
  split_ifs
  · exact Mutex.step_unlock_lock es
  · rfl

theorem Mutex.run_work_append {K : Type} (b : Bool) (k : K) (es : List (Event K)) :
    Mutex.run { writer := true, readers := 0 }
        (Event.Inspect k :: ((if b = true then [Event.Delete k] else []) ++ es))
      = Mutex.run { writer := true, readers := 0 } es := by
  cases b <;> simp [Mutex.run, Mutex.step]

/-- The loop of the sweep starts and ends holding the write lock, and every one of
its events can happen: a yield releases the lock it holds and takes it back, tests
and deletions happen under the write lock. None of its events is in the read mode. -/
theorem rangeLoop_lock (js : Bool) (Y : Int) (now : Time) :
    ∀ (l : List (Sigma fun _ : K => expVal V)) (m r : AList (fun _ : K => expVal V))
      (counter : Int) (tr : List (Event K)),
      rangeLoop js Y now l m counter = some (r, tr) →
      (∀ es, Mutex.run { writer := true, readers := 0 } (tr ++ es)
        = Mutex.run { writer := true, readers := 0 } es) ∧
      tr.all (fun e => !e.isRead) = true := by
  intro l
  induction l with
  | nil =>
    intro m r counter tr h
    simp only [rangeLoop, Option.some.injEq, Prod.mk.injEq] at h
    rw [← h.2]
    exact ⟨fun _ => rfl, rfl⟩
  | cons kv rest ih =>
    intro m r counter tr h
    obtain ⟨ys, t, hy, hrec, htr⟩ := rangeLoop_cons_some js Y now kv rest m r counter tr h
    have hys := yieldCheck_some js Y counter ys hy
    obtain ⟨hrun, hall⟩ := ih _ r _ t hrec
    rw [htr, hys]
    constructor
    · intro es
      rw [List.append_assoc, List.append_assoc, Mutex.run_yield_append, List.cons_append,
        Mutex.run_work_append, hrun]
    · have h1 : (if js = true ∧ counter.tmod Y = 0 then [Event.Unlock, Event.Lock] else []
          : List (Event K)).all (fun e => !e.isRead) = true := by
        split_ifs <;> rfl
      have h2 : (if Before kv.2.expTime now = true then [Event.Delete kv.1] else []
          : List (Event K)).all (fun e => !e.isRead) = true := by
        split_ifs <;> rfl
      have h3 : (!(Event.Inspect kv.1 : Event K).isRead) = true := rfl
      rw [List.all_append, List.all_append, List.all_cons, h1, h2, h3, hall]
      rfl

/-- The loop of the sweep tests the entry of every key it is given. -/
theorem rangeLoop_inspects (js : Bool) (Y : Int) (now : Time) :
    ∀ (l : List (Sigma fun _ : K => expVal V)) (m r : AList (fun _ : K => expVal V))
      (counter : Int) (tr : List (Event K)),
      rangeLoop js Y now l m counter = some (r, tr) →
      ∀ kv ∈ l, Event.Inspect kv.1 ∈ tr := by
  intro l
  induction l with
  | nil =>
    intro m r counter tr _ kv hkv
    cases hkv
  | cons kv0 rest ih =>
    intro m r counter tr h kv hkv
    obtain ⟨ys, t, -, hrec, htr⟩ := rangeLoop_cons_some js Y now kv0 rest m r counter tr h
    rw [htr]
    rcases List.mem_cons.mp hkv with heq | hmem
    · rw [heq]
      exact List.mem_append_left _ (List.mem_append_right _ (List.mem_cons_self _ _))
    · exact List.mem_append_right _ (ih _ r _ t hrec kv hmem)

/-- The sweep of a cache whose janitor fields agree: it returns; its events are a
`Lock`, the events of the loop, and an `Unlock`; the loop runs from the write lock
held to the write lock held and tests the entry of every key of the map; the whole
sequence takes the mutex from free back to free, with no event in the read mode;
and the map it leaves is the entries that do not expire before `now`. -/
theorem CleanExpired_lock (c : Cache K V) (now : Time)
    (hcfg : c.janitorStops = true → c.stopJanitorEvery ≠ 0) :
    ∃ c1 t, CleanExpired c now = some (c1, Event.Lock :: t ++ [Event.Unlock]) ∧
      Mutex.run Mutex.free (Event.Lock :: t ++ [Event.Unlock]) = some Mutex.free ∧
      Mutex.run { writer := true, readers := 0 } t = some { writer := true, readers := 0 } ∧
      (Event.Lock :: t ++ [Event.Unlock]).all (fun e => !e.isRead) = true ∧
      (∀ k ∈ c.m.keys, Event.Inspect k ∈ t) ∧
      c1.m.entries = c.m.entries.filter (fun kv => !Before kv.2.expTime now) := by
  obtain ⟨m1, t, hrec, hent⟩ :=
    rangeLoop_entries c.janitorStops c.stopJanitorEvery now hcfg c.m.entries [] c.m 1 rfl
  obtain ⟨hrun, hall⟩ := rangeLoop_lock c.janitorStops c.stopJanitorEvery now _ _ _ _ _ hrec
  have hins := rangeLoop_inspects c.janitorStops c.stopJanitorEvery now _ _ _ _ _ hrec
  refine ⟨{ c with m := m1 }, t, ?_, ?_, ?_, ?_, ?_, ?_⟩
  · unfold CleanExpired
    rw [hrec]
  · have hfirst : Mutex.run Mutex.free (Event.Lock :: t ++ [Event.Unlock])
        = Mutex.run { writer := true, readers := 0 } (t ++ [Event.Unlock]) := by
      simp [Mutex.run, Mutex.step, Mutex.free]
    rw [hfirst, hrun]
    simp [Mutex.run, Mutex.step, Mutex.free]
  · have h := hrun []
    rw [List.append_nil] at h
    rw [h]
    rfl
  · rw [List.cons_append, List.all_cons, List.all_append, hall]
    rfl
  · intro k hk
    obtain ⟨kv, hkv, hfst⟩ := List.mem_map.mp hk
    rw [← hfst]
    exact hins kv hkv
  · simpa using hent

theorem StoreT_fst (c : Cache K V) (now : Time) (key : K) (val : V) (dur : Duration) :
    (StoreT c now key val dur).1 = Store c now key val dur :=
  rfl

theorem StoreDefDurT_fst (c : Cache K V) (now : Time) (key : K) (val : V) :
    (StoreDefDurT c now key val).1 = StoreDefDur c now key val :=
  rfl

theorem DeleteT_fst (c : Cache K V) (key : K) : (DeleteT c key).1 = Delete c key :=
  rfl

theorem GetT_eq [Inhabited V] (c : Cache K V) (now : Time) (key : K) :
    GetT c now key = (c, Get c now key, [Event.RLock, Event.RUnlock]) := by
  unfold GetT Get
  cases c.m.lookup key with
  | none => rfl
  | some e => by_cases hx : Before e.expTime now = true <;> simp [hx]

theorem UpdateT_eq (c : Cache K V) (now : Time) (key : K) (dur : Duration) (f : V → V) :
    UpdateT c now key dur f
      = ((Update c now key dur f).1, (Update c now key dur f).2, [Event.Lock, Event.Unlock]) := by
  unfold UpdateT Update
  cases c.m.lookup key with
  | none => rfl
  | some e => by_cases hx : Before e.expTime now = true <;> simp [hx]

theorem getAll_eq [Inhabited V] (c : Cache K V) (calls : List (Time × K)) :
    getAll c calls = c := by
  unfold getAll
  induction calls with
  | nil => rfl
  | cons g rest ih =>
    rw [List.foldl_cons, GetT_eq]
    exact ih

/-- Storing keys that are pairwise distinct and not yet in the map adds one entry
for each. -/
theorem ObjectAmount_storeAll :
    ∀ (calls : List (StoreCall K V)) (c : Cache K V),
      (calls.map StoreCall.key).Nodup → (∀ s ∈ calls, s.key ∉ c.m) →
      ObjectAmount (storeAll c calls) = ObjectAmount c + calls.length := by
  intro calls
  induction calls with
  | nil => intro c _ _; rfl
  | cons s rest ih =>
    intro c hnd hnew
    rw [List.map_cons, List.nodup_cons] at hnd
    have hstep : ObjectAmount (Store c s.now s.key s.val s.dur) = ObjectAmount c + 1 := by
      show (c.m.insert s.key _).entries.length = c.m.entries.length + 1
      rw [length_insert_entries, if_neg (hnew s (List.mem_cons_self _ _))]
    have hnew1 : ∀ s1 ∈ rest, s1.key ∉ (Store c s.now s.key s.val s.dur).m := by
      intro s1 hs1 hmem
      have hmem1 : s1.key ∈ c.m.insert s.key { expTime := Add s.now s.dur, val := s.val } :=
        hmem
      rw [AList.mem_insert] at hmem1
      rcases hmem1 with heq | hold
      · exact hnd.1 (heq ▸ List.mem_map_of_mem StoreCall.key hs1)
      · exact hnew s1 (List.mem_cons_of_mem _ hs1) hold
    have := ih (Store c s.now s.key s.val s.dur) hnd.2 hnew1
    show ObjectAmount (storeAll (Store c s.now s.key s.val s.dur) rest) = _
    rw [this, hstep, List.length_cons]
    omega

/-! ### No method writes the janitor fields -/

theorem Constructed_Store (c : Cache K V) (now : Time) (key : K) (val : V) (dur : Duration)
    (h : Constructed c) : Constructed (Store c now key val dur) :=
  h

theorem Constructed_Delete (c : Cache K V) (key : K) (h : Constructed c) :
    Constructed (Delete c key) :=
  h

theorem Constructed_Update (c : Cache K V) (now : Time) (key : K) (dur : Duration) (f : V → V)
    (h : Constructed c) : Constructed (Update c now key dur f).1 := by
  unfold Update
  cases c.m.lookup key with
  | none => exact h
  | some e =>
    by_cases hx : Before e.expTime now = true
    · simpa [hx] using h
    · simpa [hx] using h

theorem Constructed_CleanExpired (c c1 : Cache K V) (now : Time) (tr : List (Event K))
    (h : Constructed c) (hrun : CleanExpired c now = some (c1, tr)) : Constructed c1 := by
  obtain ⟨c2, tr2, hrun2, -, -, -, hj, hs⟩ := CleanExpired_entries c now h.ne_zero
  rw [hrun] at hrun2
  simp only [Option.some.injEq, Prod.mk.injEq] at hrun2
  unfold Constructed at h ⊢
  rw [hrun2.1, hj, hs]
  exact h

end Lemmas

/-! ## The claims -/

section Claims

variable {K V : Type} [DecidableEq K]

/-- C1, as the code has it: `Get` returns the stored value with no error exactly when
the key is in the map and its expiration time is not before `now` (at or after `now`);
when the key is absent or its expiration time is strictly before `now` it returns the
zero value with `ErrNotExists`. -/
theorem C1_Get_iff_present_and_not_before [Inhabited V] (c : Cache K V) (now : Time) (key : K) :
    (∀ e, c.m.lookup key = some e → now ≤ e.expTime → Get c now key = (e.val, none)) ∧
    (∀ e, c.m.lookup key = some e → e.expTime < now →
      Get c now key = (zero V, some Error.ErrNotExists)) ∧
    (c.m.lookup key = none → Get c now key = (zero V, some Error.ErrNotExists)) ∧
    ((Get c now key).2 = none ↔ ∃ e, c.m.lookup key = some e ∧ now ≤ e.expTime) := by
  refine ⟨fun e h hl => Get_of_live c now key e h hl,
    fun e h hx => Get_of_expired c now key e h hx,
    fun h => Get_of_absent c now key h, ?_⟩
  cases hlk : c.m.lookup key with
  | none => simp [Get_of_absent c now key hlk]
  | some e =>
    by_cases hx : e.expTime < now
    · rw [Get_of_expired c now key e hlk hx]
      simp
      exact hx
    · rw [Get_of_live c now key e hlk (not_lt.mp hx)]
      simp
      exact not_lt.mp hx

/-- C1, counterexample: in `sampleCache` key `1` expires at instant `5`; at `now = 5`
the expiration time is not strictly after `now`, and `Get` returns the value `7`
with no error, so "no error iff present and expiring strictly after now" fails. -/
theorem C1_counterexample :
    Get sampleCache 5 1 = (7, none) ∧
    ¬ ((Get sampleCache 5 1).2 = none ↔
        ∃ e, sampleCache.m.lookup 1 = some e ∧ (5 : Time) < e.expTime) := by
  refine ⟨by decide, ?_⟩
  intro h
  obtain ⟨e, he, hlt⟩ := h.mp (by decide)
  have h5 : sampleCache.m.lookup 1 = some { expTime := 5, val := 7 } := by decide
  rw [h5] at he
  cases he
  exact absurd hlt (by decide)

/-- C2: `Store` binds `key` to exactly `(val, now + dur)`, leaves the entry of every
other key and the configuration unchanged, and the number of entries grows by one
when `key` was not in the map and stays the same otherwise. -/
theorem C2_Store_effect (c : Cache K V) (now : Time) (key : K) (val : V) (dur : Duration) :
    (Store c now key val dur).m.lookup key = some { expTime := now + dur, val := val } ∧
    (∀ k, k ≠ key → (Store c now key val dur).m.lookup k = c.m.lookup k) ∧
    ObjectAmount (Store c now key val dur)
      = (if key ∈ c.m then ObjectAmount c else ObjectAmount c + 1) ∧
    (Store c now key val dur).defStoreTime = c.defStoreTime ∧
    (Store c now key val dur).cleanPeriod = c.cleanPeriod ∧
    (Store c now key val dur).janitorStops = c.janitorStops ∧
    (Store c now key val dur).stopJanitorEvery = c.stopJanitorEvery := by
  refine ⟨Store_lookup_self c now key val dur,
    fun k hk => Store_lookup_other c now key val dur k hk, ?_, rfl, rfl, rfl, rfl⟩
  exact length_insert_entries c.m key _

/-- C3: after `Store(key, val, dur)` at instant `t` with `dur > 0`, `Get(key)` at any
instant `t'` with `t ≤ t' < t + dur` returns `val` with no error. -/
theorem C3_Get_after_Store_live [Inhabited V] (c : Cache K V) (t t' : Time) (key : K) (val : V)
    (dur : Duration) (hdur : 0 < dur) (h1 : t ≤ t') (h2 : t' < t + dur) :
    Get (Store c t key val dur) t' key = (val, none) := by
  have _ := hdur
  have _ := h1
  exact Get_of_live _ t' key _ (Store_lookup_self c t key val dur) (le_of_lt h2)

/-- C3, witness: stored at instant `100` for `10`, read at instant `109`. -/
theorem C3_witness :
    (0 : Duration) < 10 ∧ (100 : Time) ≤ 109 ∧ (109 : Time) < 100 + 10 ∧
    Get (Store sampleCache 100 2 42 10) 109 2 = (42, none) :=
  ⟨by decide, by decide, by decide,
    C3_Get_after_Store_live sampleCache 100 109 2 42 10 (by decide) (by decide) (by decide)⟩

/-- C4, as the code has it: after `Store(key, val, dur)` at instant `t`, `Get(key)` at
an instant `t'` whose elapsed wait `t' - t` is strictly greater than `dur` returns
`ErrNotExists` with the zero value, while the entry is still in the map and the
number of entries is what it was after the `Store`. -/
theorem C4_Get_after_Store_expired [Inhabited V] (c : Cache K V) (t t' : Time) (key : K)
    (val : V) (dur : Duration) (h : dur < t' - t) :
    Get (Store c t key val dur) t' key = (zero V, some Error.ErrNotExists) ∧
    (Store c t key val dur).m.lookup key = some { expTime := t + dur, val := val } ∧
    key ∈ (Store c t key val dur).m := by
  have hl := Store_lookup_self c t key val dur
  refine ⟨Get_of_expired _ t' key _ hl ?_, hl, ?_⟩
  · exact lt_sub_iff_add_lt'.mp h
  · rw [← AList.lookup_isSome, hl]
    rfl

/-- C4, witness: stored at instant `0` for `10`, read at instant `15`. -/
theorem C4_witness :
    (10 : Duration) < 15 - 0 ∧
    Get (Store sampleCache 0 2 42 10) 15 2 = (0, some Error.ErrNotExists) ∧
    (Store sampleCache 0 2 42 10).m.lookup 2 = some { expTime := 0 + 10, val := 42 } ∧
    2 ∈ (Store sampleCache 0 2 42 10).m :=
  ⟨by decide, C4_Get_after_Store_expired sampleCache 0 15 2 42 10 (by decide)⟩

/-- C4, counterexample: stored at instant `0` for `10` and read at instant `10`, the
elapsed wait equals the duration (`10 ≤ 10 - 0`), and `Get` returns the value `42`
with no error instead of `ErrNotExists` with the zero value. -/
theorem C4_counterexample :
    (10 : Duration) ≤ 10 - 0 ∧
    Get (Store (NewCache Nat Int) 0 2 42 10) 10 2 = (42, none) ∧
    Get (Store (NewCache Nat Int) 0 2 42 10) 10 2 ≠ (zero Int, some Error.ErrNotExists) := by
  decide

/-- C5, the code at the failing input: with `cfg.StoreTime = 0` (the configuration
of `NewCache`) the cache keeps `defStoreTime = 0`, so `StoreDefDur` at instant `0`
stores the entry with expiration `0 + 0`, where `Store` with `defaultStoreDuration`
stores it with expiration `600000000000` (ten minutes). -/
theorem C5_StoreDefDur_zero_StoreTime :
    (NewCache Nat Int).defStoreTime = 0 ∧
    StoreDefDur (NewCache Nat Int) 0 1 1 = Store (NewCache Nat Int) 0 1 1 0 ∧
    (StoreDefDur (NewCache Nat Int) 0 1 1).m.lookup 1 = some { expTime := 0, val := 1 } ∧
    (Store (NewCache Nat Int) 0 1 1 defaultStoreDuration).m.lookup 1
      = some { expTime := 600000000000, val := 1 } ∧
    (StoreDefDur (NewCache Nat Int) 0 1 1).m.lookup 1
      ≠ (Store (NewCache Nat Int) 0 1 1 defaultStoreDuration).m.lookup 1 := by
  refine ⟨rfl, rfl, by decide, by decide, by decide⟩

/-- C6, the code at the failing input: on `NewCache()`, `StoreDefDur(1, 1)` at instant
`0` followed by `Get(1)` fifteen milliseconds later (well inside ten minutes) returns
the zero value with `ErrNotExists`, not the value `1`. -/
theorem C6_Get_after_StoreDefDur_NewCache :
    (0 : Time) < 15000000 ∧ (15000000 : Duration) - 0 < defaultStoreDuration ∧
    Get (StoreDefDur (NewCache Nat Int) 0 1 1) 15000000 1 = (0, some Error.ErrNotExists) := by
  decide

/-- C7, as the code has it: when `key` is absent from the map, or the expiration
time of its entry is strictly before `now`, `Update` returns `ErrNotExists` and the
cache is unchanged: same map, same number of entries. -/
theorem C7_Update_absent_or_expired (c : Cache K V) (now : Time) (key : K) (dur : Duration)
    (f : V → V)
    (h : c.m.lookup key = none ∨ ∃ e, c.m.lookup key = some e ∧ e.expTime < now) :
    (Update c now key dur f).2 = some Error.ErrNotExists ∧
    (Update c now key dur f).1 = c ∧
    (∀ k, (Update c now key dur f).1.m.lookup k = c.m.lookup k) ∧
    ObjectAmount (Update c now key dur f).1 = ObjectAmount c := by
  have hu : Update c now key dur f = (c, some Error.ErrNotExists) := by
    rcases h with h | ⟨e, he, hx⟩
    · exact Update_of_absent c now key dur f h
    · exact Update_of_expired c now key dur f e he hx
  rw [hu]
  exact ⟨rfl, rfl, fun _ => rfl, rfl⟩

/-- C7, witness: in `sampleCache` key `2` is absent, and key `1` (expiring at `5`) is
expired at instant `6`. -/
theorem C7_witness :
    (sampleCache.m.lookup 2 = none ∧
      (Update sampleCache 6 2 10 (fun v => v + 1)).2 = some Error.ErrNotExists ∧
      (Update sampleCache 6 2 10 (fun v => v + 1)).1 = sampleCache) ∧
    (sampleCache.m.lookup 1 = some { expTime := 5, val := 7 } ∧ (5 : Time) < 6 ∧
      (Update sampleCache 6 1 10 (fun v => v + 1)).2 = some Error.ErrNotExists ∧
      (Update sampleCache 6 1 10 (fun v => v + 1)).1 = sampleCache) :=
  have ha := C7_Update_absent_or_expired sampleCache 6 2 10 (fun v => v + 1)
    (Or.inl (by decide))
  have he := C7_Update_absent_or_expired sampleCache 6 1 10 (fun v => v + 1)
    (Or.inr ⟨{ expTime := 5, val := 7 }, by decide, by decide⟩)
  ⟨⟨by decide, ha.1, ha.2.1⟩, ⟨by decide, by decide, he.1, he.2.1⟩⟩

/-- C7, counterexample: in `sampleCache` key `1` expires at instant `5`. At `now = 5`
its expiration time is not strictly after `now`, so the entry is expired as the
specification has it; `Update` nevertheless returns no error and rewrites the entry
to `(8, 15)`: the cache is not left unchanged. -/
theorem C7_counterexample :
    sampleCache.m.lookup 1 = some { expTime := 5, val := 7 } ∧ ¬ ((5 : Time) < 5) ∧
    (Update sampleCache 5 1 10 (fun v => v + 1)).2 = none ∧
    (Update sampleCache 5 1 10 (fun v => v + 1)).1.m.lookup 1
      = some { expTime := 15, val := 8 } ∧
    (Update sampleCache 5 1 10 (fun v => v + 1)).1.m.lookup 1 ≠ sampleCache.m.lookup 1 := by
  decide

/-- C8: when `key` is present with entry `e` and not expired at `now` (its expiration
time is not before `now`), `Update` returns no error and binds `key` to exactly
`(f e.val, now + dur)`, whatever `e.expTime` was; every other key's entry, the number
of entries and the configuration are unchanged. -/
theorem C8_Update_live (c : Cache K V) (now : Time) (key : K) (dur : Duration) (f : V → V)
    (e : expVal V) (h : c.m.lookup key = some e) (hlive : ¬ e.expTime < now) :
    (Update c now key dur f).2 = none ∧
    (Update c now key dur f).1.m.lookup key
      = some { expTime := now + dur, val := f e.val } ∧
    (∀ k, k ≠ key → (Update c now key dur f).1.m.lookup k = c.m.lookup k) ∧
    ObjectAmount (Update c now key dur f).1 = ObjectAmount c ∧
    (Update c now key dur f).1.defStoreTime = c.defStoreTime ∧
    (Update c now key dur f).1.cleanPeriod = c.cleanPeriod ∧
    (Update c now key dur f).1.janitorStops = c.janitorStops ∧
    (Update c now key dur f).1.stopJanitorEvery = c.stopJanitorEvery := by
  rw [Update_of_live c now key dur f e h hlive]
  refine ⟨rfl, AList.lookup_insert _, fun k hk => AList.lookup_insert_ne hk, ?_,
    rfl, rfl, rfl, rfl⟩
  have hmem : key ∈ c.m := by
    rw [← AList.lookup_isSome, h]
    rfl
  show (c.m.insert key _).entries.length = c.m.entries.length
  rw [length_insert_entries, if_pos hmem]

/-- C8, witness: in `sampleCache` key `1` holds `7` and expires at `5`; `Update` at
instant `3` for `10` with `v ↦ v + 1` binds it to `(8, 13)`. -/
theorem C8_witness :
    sampleCache.m.lookup 1 = some { expTime := 5, val := 7 } ∧ ¬ (5 : Time) < 3 ∧
    (Update sampleCache 3 1 10 (fun v => v + 1)).2 = none ∧
    (Update sampleCache 3 1 10 (fun v => v + 1)).1.m.lookup 1
      = some { expTime := 3 + 10, val := 7 + 1 } :=
  have hu := C8_Update_live sampleCache 3 1 10 (fun v => v + 1) { expTime := 5, val := 7 }
    (by decide) (by decide)
  ⟨by decide, by decide, hu.1, hu.2.1⟩

/-- C9: whatever the cache holds for `key` (a live entry, an expired entry, nothing),
`Delete(key)` followed by `Get(key)` at any instant returns the zero value of `V`
with `ErrNotExists`. -/
theorem C9_Get_after_Delete [Inhabited V] (c : Cache K V) (key : K) (now : Time) :
    Get (Delete c key) now key = (zero V, some Error.ErrNotExists) :=
  Get_of_absent (Delete c key) now key (AList.lookup_erase key c.m)

/-- C10: `Delete(key)` leaves the entry of every other key as it was, so `Get` on any
other key returns what it returned before; it removes one entry when `key` is in the
map and none otherwise, and when `key` is not in the map the cache is unchanged. -/
theorem C10_Delete_frame [Inhabited V] (c : Cache K V) (key : K) :
    (∀ k, k ≠ key → (Delete c key).m.lookup k = c.m.lookup k) ∧
    (∀ k, k ≠ key → ∀ now, Get (Delete c key) now k = Get c now k) ∧
    ObjectAmount (Delete c key)
      = (if key ∈ c.m then ObjectAmount c - 1 else ObjectAmount c) ∧
    (key ∉ c.m → Delete c key = c) := by
  have hl : ∀ k, k ≠ key → (Delete c key).m.lookup k = c.m.lookup k :=
    fun k hk => AList.lookup_erase_ne hk
  refine ⟨hl, ?_, length_erase_entries c.m key, ?_⟩
  · intro k hk now
    unfold Get
    rw [hl k hk]
  · intro hn
    exact Cache.ext_fields (erase_of_not_mem c.m key hn) rfl rfl rfl rfl

/-- C11: on a cache whose janitor fields are as the constructor sets them,
`CleanExpired` at `now` returns, lowers `ObjectAmount` by exactly the number of
entries for which `Get` reports `ErrNotExists` at `now`, and every entry that is
live at `now` (expiration not before `now`) is still there with the same value and
expiration. -/
theorem C11_CleanExpired_count [Inhabited V] (c : Cache K V) (now : Time)
    (hc : Constructed c) :
    ∃ c1 tr, CleanExpired c now = some (c1, tr) ∧
      ObjectAmount c1
          + c.m.entries.countP
              (fun kv => decide ((Get c now kv.1).2 = some Error.ErrNotExists))
        = ObjectAmount c ∧
      (∀ k e, c.m.lookup k = some e → ¬ e.expTime < now → c1.m.lookup k = some e) := by
  obtain ⟨c1, tr, hrun, hent, hlook⟩ := CleanExpired_lookup c now hc.ne_zero
  refine ⟨c1, tr, hrun, ?_, ?_⟩
  · have hcount : c.m.entries.countP
          (fun kv => decide ((Get c now kv.1).2 = some Error.ErrNotExists))
        = c.m.entries.countP (fun kv => decide ¬ ((!Before kv.2.expTime now) = true)) := by
      apply List.countP_congr
      intro kv hkv
      have := Get_error_iff_of_mem c now kv hkv
      simp only [decide_eq_true_eq]
      rw [this]
      simp
    unfold ObjectAmount
    rw [hcount, hent, ← List.countP_eq_length_filter]
    exact (List.length_eq_countP_add_countP (fun kv => !Before kv.2.expTime now) c.m.entries).symm
  · intro k e hk hlive
    rw [hlook k, hk]
    have : Before e.expTime now = false := by simpa [Before] using hlive
    simp [Option.filter, this]

/-- C11, witness: `sweepCache` holds three entries, one of them (key `2`, expiring
at `5`) expired at instant `50`. -/
theorem C11_witness :
    Constructed sweepCache ∧
    ∃ c1 tr, CleanExpired sweepCache 50 = some (c1, tr) ∧
      ObjectAmount c1
          + sweepCache.m.entries.countP
              (fun kv => decide ((Get sweepCache 50 kv.1).2 = some Error.ErrNotExists))
        = ObjectAmount sweepCache ∧
      (∀ k e, sweepCache.m.lookup k = some e → ¬ e.expTime < 50 → c1.m.lookup k = some e) :=
  ⟨by decide, C11_CleanExpired_count sweepCache 50 (by decide)⟩

/-- C12, as the code has it: on a cache whose janitor fields are as the constructor
sets them, `CleanExpired` at `now` returns, and afterwards the map contains no entry
whose expiration time is strictly before `now`: every such entry has been deleted,
and every entry left expires at or after `now`. -/
theorem C12_CleanExpired_removes_before (c : Cache K V) (now : Time) (hc : Constructed c) :
    ∃ c1 tr, CleanExpired c now = some (c1, tr) ∧
      (∀ k e, c1.m.lookup k = some e → now ≤ e.expTime) ∧
      (∀ k e, c.m.lookup k = some e → e.expTime < now → c1.m.lookup k = none) := by
  obtain ⟨c1, tr, hrun, -, hlook⟩ := CleanExpired_lookup c now hc.ne_zero
  refine ⟨c1, tr, hrun, ?_, ?_⟩
  · intro k e hk
    rw [hlook k] at hk
    cases hl : c.m.lookup k with
    | none => rw [hl] at hk; simp [Option.filter] at hk
    | some e0 =>
      rw [hl] at hk
      by_cases hx : Before e0.expTime now = true
      · simp [Option.filter, hx] at hk
      · simp [Option.filter, hx] at hk
        subst hk
        simpa [Before] using hx
  · intro k e hk hx
    rw [hlook k, hk]
    have : Before e.expTime now = true := by simpa [Before] using hx
    simp [Option.filter, this]

/-- C12, witness: the sweep of `sweepCache` at instant `50`. -/
theorem C12_witness :
    Constructed sweepCache ∧
    ∃ c1 tr, CleanExpired sweepCache 50 = some (c1, tr) ∧
      (∀ k e, c1.m.lookup k = some e → (50 : Time) ≤ e.expTime) ∧
      (∀ k e, sweepCache.m.lookup k = some e → e.expTime < 50 → c1.m.lookup k = none) :=
  ⟨by decide, C12_CleanExpired_removes_before sweepCache 50 (by decide)⟩

/-- C12, counterexample: in `sampleCache` key `1` expires at instant `5`; after
`CleanExpired` at `now = 5` the entry is still in the map, with an expiration time
at or before `now`. -/
theorem C12_counterexample :
    (CleanExpired sampleCache 5).map (fun r => r.1.m.lookup 1)
      = some (some { expTime := 5, val := 7 }) ∧
    (5 : Time) ≤ 5 := by
  decide

/-- C13: `ObjectAmount` is the number of keys in the map, whatever their expiration:
after `Store` calls on `n` pairwise distinct keys on a new cache, at any instants and
for any durations (expired or not), it returns `n`; at every instant it is the number
of entries expired then plus the number of entries live then; and `Get` calls, in any
number and at any instants, leave the cache, and so the value of `ObjectAmount`,
unchanged, as does `ObjectAmount` itself. -/
theorem C13_ObjectAmount_counts_entries [Inhabited V] (cfg : Config)
    (calls : List (StoreCall K V)) (hnd : (calls.map StoreCall.key).Nodup) :
    ObjectAmount (storeAll (NewCacheWithConfig K V cfg) calls) = calls.length ∧
    (∀ c : Cache K V, ObjectAmount c = c.m.keys.length) ∧
    (∀ (c : Cache K V) (now : Time), ObjectAmount c
      = (c.m.entries.filter (fun kv => Before kv.2.expTime now)).length
        + (c.m.entries.filter (fun kv => !Before kv.2.expTime now)).length) ∧
    (∀ (c : Cache K V) (now : Time) (key : K), (GetT c now key).1 = c) ∧
    (∀ (c : Cache K V) (gets : List (Time × K)),
      getAll c gets = c ∧ ObjectAmount (getAll c gets) = ObjectAmount c) ∧
    (∀ c : Cache K V, (ObjectAmountT c).1 = c ∧ (ObjectAmountT c).2.1 = ObjectAmount c) := by
  refine ⟨?_, ?_, ?_, ?_, ?_, fun c => ⟨rfl, rfl⟩⟩
  · have h := ObjectAmount_storeAll calls (NewCacheWithConfig K V cfg) hnd
      (fun s _ => AList.not_mem_empty s.key)
    rw [h]
    show (0 : Nat) + calls.length = calls.length
    omega
  · intro c
    show c.m.entries.length = (c.m.entries.map Sigma.fst).length
    rw [List.length_map]
  · intro c now
    unfold ObjectAmount
    rw [← List.countP_eq_length_filter, ← List.countP_eq_length_filter,
      List.length_eq_countP_add_countP (fun kv => Before kv.2.expTime now) c.m.entries]
    congr 1
    apply List.countP_congr
    intro kv _
    simp
  · intro c now key
    rw [GetT_eq]
  · intro c gets
    rw [getAll_eq]
    exact ⟨rfl, rfl⟩

/-- C13, witness: three `Store` calls on the keys `1`, `2`, `3` at instant `0`, the
second with a duration of zero. -/
theorem C13_witness :
    ([{ now := 0, key := 1, val := 10, dur := 5 }, { now := 0, key := 2, val := 20, dur := 0 },
      { now := 0, key := 3, val := 30, dur := 7 }].map
        (StoreCall.key : StoreCall Nat Int → Nat)).Nodup ∧
    ObjectAmount (storeAll (NewCacheWithConfig Nat Int
        { StoreTime := 0, JanitorConfig := { CleanPeriod := 0, StopJanitorEvery := 0 } })
      [{ now := 0, key := 1, val := 10, dur := 5 }, { now := 0, key := 2, val := 20, dur := 0 },
        { now := 0, key := 3, val := 30, dur := 7 }]) = 3 :=
  ⟨by decide,
    (C13_ObjectAmount_counts_entries
      { StoreTime := 0, JanitorConfig := { CleanPeriod := 0, StopJanitorEvery := 0 } }
      [{ now := 0, key := 1, val := 10, dur := 5 }, { now := 0, key := 2, val := 20, dur := 0 },
        { now := 0, key := 3, val := 30, dur := 7 }] (by decide)).1⟩

/-- C14: on a cache whose janitor fields are as the constructor sets them, for a
sweep at `s` and any instant `t ≥ s`, `Get(key)` at `t` returns the same pair and
`Update(key, ...)` at `t` returns the same error (and on success writes the same
entry) on the swept cache as on the unswept one; and an entry whose expiration is
before `t` is treated by `Get` and `Update` at `t` as if `Delete` had removed it. -/
theorem C14_sweep_invisible [Inhabited V] (c : Cache K V) (s t : Time) (key : K)
    (dur : Duration) (f : V → V) (hc : Constructed c) (hst : s ≤ t) :
    (∃ c1 tr, CleanExpired c s = some (c1, tr) ∧
      Get c1 t key = Get c t key ∧
      (Update c1 t key dur f).2 = (Update c t key dur f).2 ∧
      ((Update c t key dur f).2 = none →
        (Update c1 t key dur f).1.m.lookup key = (Update c t key dur f).1.m.lookup key)) ∧
    (∀ e, c.m.lookup key = some e → e.expTime < t →
      Get c t key = Get (Delete c key) t key ∧
      (Update c t key dur f).2 = (Update (Delete c key) t key dur f).2) := by
  constructor
  · obtain ⟨c1, tr, hrun, -, hlook⟩ := CleanExpired_lookup c s hc.ne_zero
    refine ⟨c1, tr, hrun, ?_⟩
    cases hl : c.m.lookup key with
    | none =>
      have h1 : c1.m.lookup key = c.m.lookup key := by
        rw [hlook key, hl]
        rfl
      exact ⟨Get_congr c c1 t key h1, Update_error_congr c c1 t key dur f h1⟩
    | some e =>
      by_cases hx : Before e.expTime s = true
      · have h1 : c1.m.lookup key = none := by
          rw [hlook key, hl]
          simp [Option.filter, hx]
        have hes : e.expTime < s := by simpa [Before] using hx
        have het : e.expTime < t := lt_of_lt_of_le hes hst
        rw [Get_of_absent c1 t key h1, Get_of_expired c t key e hl het,
          Update_of_absent c1 t key dur f h1, Update_of_expired c t key dur f e hl het]
        exact ⟨rfl, rfl, fun h => by simp at h⟩
      · have h1 : c1.m.lookup key = c.m.lookup key := by
          rw [hlook key, hl]
          simp [Option.filter, hx]
        exact ⟨Get_congr c c1 t key h1, Update_error_congr c c1 t key dur f h1⟩
  · intro e hl het
    have hd : (Delete c key).m.lookup key = none := AList.lookup_erase key c.m
    rw [Get_of_expired c t key e hl het, Get_of_absent (Delete c key) t key hd,
      Update_of_expired c t key dur f e hl het, Update_of_absent (Delete c key) t key dur f hd]
    exact ⟨rfl, rfl⟩

/-- C14, witness: `sweepCache` swept at instant `50` and read at instant `60`, on
key `2`, which expired at `5`. -/
theorem C14_witness :
    Constructed sweepCache ∧ (50 : Time) ≤ 60 ∧
    (∃ c1 tr, CleanExpired sweepCache 50 = some (c1, tr) ∧
      Get c1 60 2 = Get sweepCache 60 2 ∧
      (Update c1 60 2 10 (fun v => v + 1)).2 = (Update sweepCache 60 2 10 (fun v => v + 1)).2) :=
  have h := C14_sweep_invisible sweepCache 50 60 2 10 (fun v => v + 1) (by decide) (by decide)
  ⟨by decide, by decide,
    h.1.elim fun c1 h1 => h1.elim fun tr h2 => ⟨c1, tr, h2.1, h2.2.1, h2.2.2.1⟩⟩

/-- C16: for every cache, sweep time and `StopJanitorEvery` value `Y` (zero or not),
the sweep with the janitor fields the constructor derives from `Y` and the sweep
that never yields both return, and they leave the same map: the entries of the
start that do not expire before `now`, in their order. Every entry expired at `now`
is gone, and both sweeps test and delete the same keys in the same order. -/
theorem C16_sweep_independent_of_yield (c : Cache K V) (now : Time) (Y : Int) :
    ∃ cY trY c0 tr0,
      CleanExpired { c with janitorStops := decide (Y ≠ 0), stopJanitorEvery := Y } now
        = some (cY, trY) ∧
      CleanExpired { c with janitorStops := false, stopJanitorEvery := 0 } now
        = some (c0, tr0) ∧
      cY.m = c0.m ∧
      cY.m.entries = c.m.entries.filter (fun kv => !Before kv.2.expTime now) ∧
      (∀ k e, c.m.lookup k = some e → e.expTime < now → cY.m.lookup k = none) ∧
      trY.filter (fun e => !e.isWrite) = tr0.filter (fun e => !e.isWrite) := by
  have hcY : (decide (Y ≠ 0) = true → Y ≠ 0) := fun h => of_decide_eq_true h
  obtain ⟨cY, trY, hrunY, hentY, hlookY⟩ :=
    CleanExpired_lookup { c with janitorStops := decide (Y ≠ 0), stopJanitorEvery := Y } now hcY
  obtain ⟨c0, tr0, hrun0, hent0, -⟩ :=
    CleanExpired_lookup { c with janitorStops := false, stopJanitorEvery := 0 } now
      (fun h => by simp at h)
  refine ⟨cY, trY, c0, tr0, hrunY, hrun0, AList.ext (by rw [hentY, hent0]), hentY, ?_, ?_⟩
  · intro k e hk hx
    rw [hlookY k]
    show Option.filter _ (c.m.lookup k) = none
    rw [hk]
    have : Before e.expTime now = true := by simpa [Before] using hx
    simp [Option.filter, this]
  · unfold CleanExpired at hrunY hrun0
    simp only at hrunY hrun0
    cases hY : rangeLoop (decide (Y ≠ 0)) Y now c.m.entries c.m 1 with
    | none => rw [hY] at hrunY; simp at hrunY
    | some rY =>
      cases h0 : rangeLoop false 0 now c.m.entries c.m 1 with
      | none => rw [h0] at hrun0; simp at hrun0
      | some r0 =>
        obtain ⟨mY, tY⟩ := rY
        obtain ⟨m0, t0⟩ := r0
        rw [hY] at hrunY
        rw [h0] at hrun0
        simp only [Option.some.injEq, Prod.mk.injEq] at hrunY hrun0
        rw [← hrunY.2, ← hrun0.2]
        have hw := rangeLoop_work_eq (decide (Y ≠ 0)) false Y 0 now c.m.entries c.m c.m mY m0
          1 1 tY t0 hY h0
        simp only [List.filter_cons, List.filter_append, hw]

/-- C17, as the code has it: with yielding on (`janitorStops` true and
`stopJanitorEvery = Y > 0`) the sweep returns, and its lock events and tests are:
`Lock`, then the test of each entry in turn, with a yield (`Unlock`, `Lock`) right
before the test of the entries number `Y`, `2Y`, `3Y`, ... and nowhere else, then
`Unlock`. -/
theorem C17_yield_before_every_Yth (c : Cache K V) (now : Time)
    (hj : c.janitorStops = true) (hY : 0 < c.stopJanitorEvery) :
    ∃ c1 tr, CleanExpired c now = some (c1, tr) ∧
      tr.filter (fun e => !e.isDelete)
        = Event.Lock :: yieldBeforeEvery c.stopJanitorEvery c.m.keys 1 ++ [Event.Unlock] := by
  obtain ⟨m1, t, hrec, -⟩ :=
    rangeLoop_entries c.janitorStops c.stopJanitorEvery now (fun _ => ne_of_gt hY)
      c.m.entries [] c.m 1 rfl
  refine ⟨{ c with m := m1 }, Event.Lock :: t ++ [Event.Unlock], ?_, ?_⟩
  · unfold CleanExpired
    rw [hrec]
  · rw [hj] at hrec
    have h := rangeLoop_yields_before c.stopJanitorEvery hY now c.m.entries c.m m1 1 t hrec
    rw [List.cons_append, List.filter_cons, List.filter_append, h]
    rfl

/-- C17, witness: the sweep of `sweepCache` (`StopJanitorEvery = 2`, three entries). -/
theorem C17_witness :
    sweepCache.janitorStops = true ∧ (0 : Int) < sweepCache.stopJanitorEvery ∧
    ∃ c1 tr, CleanExpired sweepCache 50 = some (c1, tr) ∧
      tr.filter (fun e => !e.isDelete)
        = Event.Lock :: yieldBeforeEvery sweepCache.stopJanitorEvery sweepCache.m.keys 1
          ++ [Event.Unlock] :=
  ⟨by decide, by decide, C17_yield_before_every_Yth sweepCache 50 (by decide) (by decide)⟩

/-- C17, counterexample: `sweepCache` has `StopJanitorEvery = 2` and the keys `1`,
`2`, `3`. The sweep yields between the test of entry number `1` and the test of
entry number `2`; a yield right after the test of entry number `2` would give
another sequence. -/
theorem C17_counterexample :
    sweepCache.janitorStops = true ∧ sweepCache.stopJanitorEvery = 2 ∧
    (CleanExpired sweepCache 50).map (fun r => r.2.filter (fun e => !e.isDelete))
      = some [Event.Lock, Event.Inspect 1, Event.Unlock, Event.Lock, Event.Inspect 2,
          Event.Inspect 3, Event.Unlock] ∧
    Event.Lock :: yieldAfterEvery 2 sweepCache.m.keys 1 ++ [Event.Unlock]
      = [Event.Lock, Event.Inspect 1, Event.Inspect 2, Event.Unlock, Event.Lock,
          Event.Inspect 3, Event.Unlock] ∧
    (CleanExpired sweepCache 50).map (fun r => r.2.filter (fun e => !e.isDelete))
      ≠ some (Event.Lock :: yieldAfterEvery 2 sweepCache.m.keys 1 ++ [Event.Unlock]) := by
  decide

/-- C18: with yielding on (`janitorStops` true and `stopJanitorEvery = Y > 0`) the
sweep returns, every hold of the write lock (from the first `Lock` to the first
yield, between two yields, from the last yield to the final `Unlock`) covers at most
`Y` tests, and the holds together cover the test of every entry of the map. -/
theorem C18_at_most_Y_per_hold (c : Cache K V) (now : Time)
    (hj : c.janitorStops = true) (hY : 0 < c.stopJanitorEvery) :
    ∃ c1 tr, CleanExpired c now = some (c1, tr) ∧
      (∀ n ∈ inspectsPerHold tr 0, (n : Int) ≤ c.stopJanitorEvery) ∧
      (inspectsPerHold tr 0).sum = ObjectAmount c := by
  obtain ⟨m1, t, hrec, -⟩ :=
    rangeLoop_entries c.janitorStops c.stopJanitorEvery now (fun _ => ne_of_gt hY)
      c.m.entries [] c.m 1 rfl
  refine ⟨{ c with m := m1 }, Event.Lock :: t ++ [Event.Unlock], ?_, ?_⟩
  · unfold CleanExpired
    rw [hrec]
  · rw [hj] at hrec
    have h0 : ((0 : Nat) : Int) ≤ (((1 : Nat) : Int) - 1) % c.stopJanitorEvery + 1 := by
      simp
    have h := rangeLoop_holds c.stopJanitorEvery hY now c.m.entries c.m m1 1 0 t h0 hrec
    have hshape : inspectsPerHold (Event.Lock :: t ++ [Event.Unlock]) 0
        = inspectsPerHold (t ++ [Event.Unlock]) 0 := rfl
    rw [hshape]
    refine ⟨h.1, ?_⟩
    rw [h.2]
    show 0 + c.m.entries.length = c.m.entries.length
    omega

/-- C18, witness: the sweep of `sweepCache` (`StopJanitorEvery = 2`, three entries). -/
theorem C18_witness :
    sweepCache.janitorStops = true ∧ (0 : Int) < sweepCache.stopJanitorEvery ∧
    ∃ c1 tr, CleanExpired sweepCache 50 = some (c1, tr) ∧
      (∀ n ∈ inspectsPerHold tr 0, (n : Int) ≤ sweepCache.stopJanitorEvery) ∧
      (inspectsPerHold tr 0).sum = ObjectAmount sweepCache :=
  ⟨by decide, by decide, C18_at_most_Y_per_hold sweepCache 50 (by decide) (by decide)⟩

/-- C19: started with the mutex free, the mutex calls of each method end with the
mutex free, on every path: `Store`, `StoreDefDur`, `Delete` and `Update` (absent,
expired or live key) make one `Lock` and one `Unlock`; `Get` (absent, expired or
live key) and `ObjectAmount` make one `RLock` and one `RUnlock`; and `CleanExpired`,
on a cache whose janitor fields are as the constructor sets them, returns with the
events `Lock`, the events of its loop, `Unlock`: it takes the write lock first and
releases it last, the loop starts and ends with the write lock held (every yield
releases it and takes it back), the entry of every key of the map is tested inside
the loop, the whole sequence takes the mutex from free back to free, and none of its
events is in the read mode. -/
theorem C19_locks_released [Inhabited V] (c : Cache K V) (now : Time) (key : K) (val : V)
    (dur : Duration) (f : V → V) :
    ((StoreT c now key val dur).2 = [Event.Lock, Event.Unlock] ∧
      Mutex.run Mutex.free (StoreT c now key val dur).2 = some Mutex.free) ∧
    ((StoreDefDurT c now key val).2 = [Event.Lock, Event.Unlock] ∧
      Mutex.run Mutex.free (StoreDefDurT c now key val).2 = some Mutex.free) ∧
    ((GetT c now key).2.2 = [Event.RLock, Event.RUnlock] ∧
      Mutex.run Mutex.free (GetT c now key).2.2 = some Mutex.free) ∧
    ((DeleteT c key).2 = [Event.Lock, Event.Unlock] ∧
      Mutex.run Mutex.free (DeleteT c key).2 = some Mutex.free) ∧
    ((UpdateT c now key dur f).2.2 = [Event.Lock, Event.Unlock] ∧
      Mutex.run Mutex.free (UpdateT c now key dur f).2.2 = some Mutex.free) ∧
    ((ObjectAmountT c).2.2 = [Event.RLock, Event.RUnlock] ∧
      Mutex.run Mutex.free (ObjectAmountT c).2.2 = some Mutex.free) ∧
    (Constructed c →
      ∃ c1 t, CleanExpired c now = some (c1, Event.Lock :: t ++ [Event.Unlock]) ∧
        Mutex.run Mutex.free (Event.Lock :: t ++ [Event.Unlock]) = some Mutex.free ∧
        Mutex.run { writer := true, readers := 0 } t
          = some { writer := true, readers := 0 } ∧
        (Event.Lock :: t ++ [Event.Unlock]).all (fun e => !e.isRead) = true ∧
        (∀ k ∈ c.m.keys, Event.Inspect k ∈ t) ∧
        c1.m.entries = c.m.entries.filter (fun kv => !Before kv.2.expTime now)) := by
  have hw : Mutex.run Mutex.free ([Event.Lock, Event.Unlock] : List (Event K))
      = some Mutex.free := by
    simp [Mutex.run, Mutex.step, Mutex.free]
  have hr : Mutex.run Mutex.free ([Event.RLock, Event.RUnlock] : List (Event K))
      = some Mutex.free := by
    simp [Mutex.run, Mutex.step, Mutex.free]
  refine ⟨⟨rfl, hw⟩, ⟨rfl, hw⟩, ?_, ⟨rfl, hw⟩, ?_, ⟨rfl, hr⟩, ?_⟩
  · rw [GetT_eq]
    exact ⟨rfl, hr⟩
  · rw [UpdateT_eq]
    exact ⟨rfl, hw⟩
  · intro hc
    exact CleanExpired_lock c now hc.ne_zero

/-- C19, witness: the sweep of `sweepCache` (constructed with `StopJanitorEvery = 2`,
three entries) at instant `50`: the write lock is taken, released and retaken at the
yield, and released at the end. -/
theorem C19_witness :
    Constructed sweepCache ∧
    (CleanExpired sweepCache 50).map (fun r => r.2)
      = some [Event.Lock, Event.Inspect 1, Event.Unlock, Event.Lock, Event.Inspect 2,
          Event.Delete 2, Event.Inspect 3, Event.Unlock] ∧
    ∃ c1 t, CleanExpired sweepCache 50 = some (c1, Event.Lock :: t ++ [Event.Unlock]) ∧
      Mutex.run Mutex.free (Event.Lock :: t ++ [Event.Unlock]) = some Mutex.free ∧
      Mutex.run { writer := true, readers := 0 } t
        = some { writer := true, readers := 0 } ∧
      (Event.Lock :: t ++ [Event.Unlock]).all (fun e => !e.isRead) = true ∧
      (∀ k ∈ sweepCache.m.keys, Event.Inspect k ∈ t) ∧
      c1.m.entries = sweepCache.m.entries.filter (fun kv => !Before kv.2.expTime 50) :=
  ⟨by decide, by decide,
    (C19_locks_released sweepCache 50 1 0 0 (fun v => v)).2.2.2.2.2.2 (by decide)⟩

/-- C20: for every configuration (zero, positive or negative `StopJanitorEvery`) and
every map, the constructor sets `janitorStops` true exactly when `stopJanitorEvery`
is not zero; the yield statement evaluates no remainder when `janitorStops` is
false, and panics only when `janitorStops` is true with a zero `stopJanitorEvery`;
so `CleanExpired` on the constructed cache holding that map returns. -/
theorem C20_no_zero_divisor (cfg : Config) (m : AList (fun _ : K => expVal V)) (now : Time) :
    ((NewCacheWithConfig K V cfg).janitorStops = true
      ↔ (NewCacheWithConfig K V cfg).stopJanitorEvery ≠ 0) ∧
    (∀ Y counter : Int, yieldCheck K false Y counter = some []) ∧
    (∀ (js : Bool) (Y counter : Int), yieldCheck K js Y counter = none ↔ js = true ∧ Y = 0) ∧
    (CleanExpired { NewCacheWithConfig K V cfg with m := m } now).isSome = true := by
  have hiff : (NewCacheWithConfig K V cfg).janitorStops = true
      ↔ (NewCacheWithConfig K V cfg).stopJanitorEvery ≠ 0 := by
    simp [NewCacheWithConfig]
  refine ⟨hiff, fun _ _ => rfl, ?_, ?_⟩
  · intro js Y counter
    unfold yieldCheck
    cases js with
    | false => simp
    | true =>
      by_cases hY : Y = 0
      · simp [hY]
      · by_cases hm : counter.tmod Y = 0 <;> simp [hY, hm]
  · obtain ⟨c1, tr, hrun, -⟩ :=
      CleanExpired_entries { NewCacheWithConfig K V cfg with m := m } now hiff.mp
    rw [hrun]
    rfl

end Claims

end timecache
